import Mathlib

/-!
Shallow embedding of the `incode` library (src/src/index.ts): directive data
model, the lodash-based data merge, the directive parser, the recursive scope
resolver (`enterScope` / `enterEmit`), and the `inject` splicing loop,
together with theorems checking the specification's claims.

Modelling conventions:
* JavaScript strings are `List Char`; JSON values are the inductive `Js`.
* `JSON.parse` is an external runtime primitive, so it is taken as a
  parameter `jsonParse : String → Option Js` (`none` models a parse throw).
* The regex tokenizer (`createDirectiveMatcher` + `RegExp.exec`) is external
  to the parsing logic; its output is modelled as a list of `RawMatch`
  records carrying exactly the fields the source reads from a match object
  (`match.index`, `match[0]`, `match[1]`, `match[2]`).
* The recursion of `enterScope` is represented by an explicit stack of the
  parent scopes' saved `data` values: `Begin` pushes (the recursive call in
  the source), `End` pops (the child frame returning), and end-of-input with
  a nonempty stack is the `scopes > 0` error.  The `enterEmit` helper of the
  source is inlined in the `Emit` branch (in the source it always returns or
  throws on its first loop iteration, so it only inspects the next
  directive).
* `positionFromOffset` throws a plain `Error` when the offset is outside the
  text; this is modelled by returning `none` (the out-of-range case is
  unreachable for offsets produced by the tokenizer).
-/

namespace Incode

/-- JSON values, as produced by `JSON.parse` (numbers restricted to integers,
which suffices for every claim under check). -/
inductive Js where
  | null
  | bool (b : Bool)
  | num (n : Int)
  | str (s : String)
  | arr (elems : List Js)
  | obj (fields : List (String × Js))

/-- First binding of a key in a JavaScript-object field list (JS objects have
unique keys, so this is ordinary property lookup). -/
def lookupField : List (String × Js) → String → Option Js
  | [], _ => none
  | (k', v) :: t, k => if k' = k then some v else lookupField t k

/-- Own enumerable index properties of an array, as seen by object spread:
element `i` becomes property `toString i`. -/
def indexedFields (i : Nat) : List Js → List (String × Js)
  | [] => []
  | v :: rest => (toString i, v) :: indexedFields (i + 1) rest

/-- Own enumerable string-keyed properties of a value, as enumerated by a JS
object spread `{...v}`: objects give their fields, arrays and strings give
index properties, primitives give nothing. -/
def spreadFields : Js → List (String × Js)
  | Js.obj o => o
  | Js.arr l => indexedFields 0 l
  | Js.str s => indexedFields 0 (s.data.map (fun c => Js.str (String.mk [c])))
  | _ => []

/-- JS object-literal spread `{...d, ...a}` over two property lists: the keys
of `d` in order (values overridden by `a` where present), then the keys of
`a` not already in `d`, in `a`'s order. -/
def jsSpread2 (d a : List (String × Js)) : List (String × Js) :=
  d.map (fun kv => match lookupField a kv.1 with
    | some w => (kv.1, w)
    | none => kv) ++
  a.filter (fun kv => (lookupField d kv.1).isNone)

/-- The `Assign` update of `enterScope`: `data = { ...data, ...directive.arg }`. -/
def assignStep (data arg : Js) : Js :=
  Js.obj (jsSpread2 (spreadFields data) (spreadFields arg))

mutual

/-- Modelled from lodash `merge`'s documented semantics (the library is an
external dependency): source properties are merged into the destination,
plain objects and arrays are merged recursively, anything else (and any
mixed object/array pair) is overwritten by the source value. -/
def mergeJs : Js → Js → Js
  | Js.obj dst, Js.obj src => Js.obj (mergeObjFields dst src)
  | Js.arr dst, Js.arr src => Js.arr (mergeArrElems dst src)
  | _, src => src
termination_by a b => (sizeOf b, 0)

/-- Merge every field of `src` into `dst`, left to right. -/
def mergeObjFields : List (String × Js) → List (String × Js) → List (String × Js)
  | dst, [] => dst
  | dst, (k, v) :: rest => mergeObjFields (mergeField dst k v) rest
termination_by dst src => (sizeOf src, 0)

/-- Merge one binding into a field list: an existing key keeps its position
and its value is merged recursively; a new key is appended. -/
def mergeField : List (String × Js) → String → Js → List (String × Js)
  | [], k, v => [(k, v)]
  | (k', v') :: t, k, v =>
    if k' = k then (k', mergeJs v' v) :: t else (k', v') :: mergeField t k v
termination_by dst k v => (sizeOf v + 1, sizeOf dst)

/-- Index-wise merge of two arrays: common indices merge recursively, extra
elements of either side are kept. -/
def mergeArrElems : List Js → List Js → List Js
  | dst, [] => dst
  | [], s :: st => s :: st
  | d :: dt, s :: st => mergeJs d s :: mergeArrElems dt st
termination_by dst src => (sizeOf src, 0)

end

/-- The `Merge` update of `enterScope`: `data = merge({}, data, directive.arg)`
(lodash merges the later arguments into the first, left to right). -/
def mergeStep (data arg : Js) : Js :=
  mergeJs (mergeJs (Js.obj []) data) arg

/-- `DirectiveType` enum of the source. -/
inductive DirectiveType where
  | Begin
  | End
  | Assign
  | Merge
  | Emit
deriving DecidableEq

/-- Reverse enum lookup `DirectiveType[type]`, used in error messages. -/
def directiveTypeName : DirectiveType → String
  | .Begin => "Begin"
  | .End => "End"
  | .Assign => "Assign"
  | .Merge => "Merge"
  | .Emit => "Emit"

/-- A parsed directive.  `arg` is `Js.null` for `Begin`/`End`, the validated
object for `Assign`/`Merge`, and the parsed argument array for `Emit`.
`end_` is the source's `end` field (a Lean keyword). -/
structure Directive where
  type : DirectiveType
  arg : Js
  padding : List Char
  start : Nat
  end_ : Nat

/-- Output unit of the resolver (`InjectableRegion` of the source). -/
structure InjectableRegion where
  args : Js
  data : Js
  padding : List Char
  start : Nat
  end_ : Nat

/-- `SourcePosition` of the source (1-based line and column). -/
structure SourcePosition where
  line : Nat
  col : Nat
deriving DecidableEq

/-- The two error classes of the source. -/
inductive InvalidSourceErrorKind where
  | directive
  | region
deriving DecidableEq

/-- `InvalidSourceError`: a message plus an optional resolved position
(`position` is `null` until `setPosition` is called). -/
structure InvalidSourceError where
  kind : InvalidSourceErrorKind
  message : String
  position : Option SourcePosition
deriving DecidableEq

/-- `positionToString`. -/
def positionToString (pos : SourcePosition) : String :=
  "[" ++ toString pos.line ++ ":" ++ toString pos.col ++ "]"

/-- `InvalidSourceError.setPosition`: records the position and prefixes the
message with its rendering. -/
def InvalidSourceError.setPosition (e : InvalidSourceError) (p : SourcePosition) :
    InvalidSourceError :=
  { e with position := some p, message := positionToString p ++ " " ++ e.message }

/-- Fold step of `positionFromOffset`'s scanning loop. -/
def advancePos (p : SourcePosition) (c : Char) : SourcePosition :=
  if c = '\n' then ⟨p.line + 1, 1⟩ else ⟨p.line, p.col + 1⟩

/-- `positionFromOffset`: count newlines up to `offset`; `none` models the
`Invalid offset` throw when the offset points outside the text. -/
def positionFromOffset (s : List Char) (offset : Nat) : Option SourcePosition :=
  if offset > s.length then none
  else some ((s.take offset).foldl advancePos ⟨1, 1⟩)

/-- `String.prototype.substring` with both clamping and argument swapping. -/
def jsSubstring (s : List Char) (a b : Nat) : List Char :=
  let a' := min a s.length
  let b' := min b s.length
  (s.take (max a' b')).drop (min a' b')

/-- `String.prototype.indexOf` for a single character (`none` is `-1`). -/
def jsIndexOf : List Char → Char → Option Nat
  | [], _ => none
  | x :: t, c => if x = c then some 0 else (jsIndexOf t c).map (· + 1)

/-- `String.prototype.lastIndexOf` for a single character (`none` is `-1`). -/
def jsLastIndexOf (s : List Char) (c : Char) : Option Nat :=
  match jsIndexOf s.reverse c with
  | some i => some (s.length - 1 - i)
  | none => none

/-- Helper building an `InvalidDirectiveError` (position starts as `null`). -/
def invalidDirectiveError (message : String) : InvalidSourceError :=
  ⟨.directive, message, none⟩

/-- Helper building an `InvalidRegionError`. -/
def invalidRegionError (message : String) (p : Option SourcePosition) :
    InvalidSourceError :=
  ⟨.region, message, p⟩

/-- `directiveTypeFromString`. -/
def directiveTypeFromString (s : List Char) : Except InvalidSourceError DirectiveType :=
  if s = "begin".data then .ok .Begin
  else if s = "end".data then .ok .End
  else if s = "assign".data then .ok .Assign
  else if s = "merge".data then .ok .Merge
  else if s = "emit".data then .ok .Emit
  else .error (invalidDirectiveError ("Invalid directive type: " ++ String.mk s ++ "."))

/-- The `Assign`/`Merge` argument path of `parseDirective`: `JSON.parse` the
argument text, then require `typeof arg === "object" && arg !== null`
(note JS arrays pass the `typeof` test). -/
def parseObjectArg (jsonParse : String → Option Js) (type : DirectiveType)
    (sArg : List Char) : Except InvalidSourceError (DirectiveType × Js) :=
  match jsonParse (String.mk sArg) with
  | none => .error (invalidDirectiveError
      ("Invalid directive. Unable to parse(JSON.parse) directive argument \"" ++
        String.mk sArg ++ "\"."))
  | some arg =>
    match arg with
    | Js.obj o => .ok (type, Js.obj o)
    | Js.arr l => .ok (type, Js.arr l)
    | _ => .error (invalidDirectiveError
        ("Invalid " ++ directiveTypeName type ++ " directive. Argument should have an object type."))

/-- The `Emit` argument path of `parseDirective`: wrap in `[...]` and parse. -/
def parseEmitArg (jsonParse : String → Option Js) (sArg : List Char) :
    Except InvalidSourceError (DirectiveType × Js) :=
  match jsonParse ("[" ++ String.mk sArg ++ "]") with
  | none => .error (invalidDirectiveError
      ("Invalid directive. Unable to parse(JSON.parse) directive argument \"[" ++
        String.mk sArg ++ "]\"."))
  | some arg => .ok (.Emit, arg)

/-- Locate the last `)` and hand the substring between the parentheses to the
continuation (`s.substring(pStart + 1, pEnd)`). -/
def withClosingParen (s : List Char) (pStart : Nat)
    (k : List Char → Except InvalidSourceError (DirectiveType × Js)) :
    Except InvalidSourceError (DirectiveType × Js) :=
  match jsLastIndexOf s ')' with
  | none => .error (invalidDirectiveError
      ("Invalid directive. Unable to find closing parenthesis in a directive \"" ++
        String.mk s ++ "\"."))
  | some pEnd => k (jsSubstring s (pStart + 1) pEnd)

/-- `parseDirective`, on the text captured after the directive prefix. -/
def parseDirective (jsonParse : String → Option Js) (s : List Char) :
    Except InvalidSourceError (DirectiveType × Js) :=
  match jsIndexOf s '(' with
  | some pStart =>
    match directiveTypeFromString (s.take pStart) with
    | .error e => .error e
    | .ok .Begin => .error (invalidDirectiveError
        ("Invalid directive. " ++ directiveTypeName .Begin ++ " directive should not have arguments."))
    | .ok .End => .error (invalidDirectiveError
        ("Invalid directive. " ++ directiveTypeName .End ++ " directive should not have arguments."))
    | .ok .Assign => withClosingParen s pStart (parseObjectArg jsonParse .Assign)
    | .ok .Merge => withClosingParen s pStart (parseObjectArg jsonParse .Merge)
    | .ok .Emit => withClosingParen s pStart (parseEmitArg jsonParse)
  | none =>
    match directiveTypeFromString s with
    | .error e => .error e
    | .ok .Assign => .error (invalidDirectiveError
        ("Invalid directive. " ++ directiveTypeName .Assign ++ " directive should have arguments."))
    | .ok .Merge => .error (invalidDirectiveError
        ("Invalid directive. " ++ directiveTypeName .Merge ++ " directive should have arguments."))
    | .ok .Emit => .error (invalidDirectiveError
        ("Invalid directive. " ++ directiveTypeName .Emit ++ " directive should have arguments."))
    | .ok .Begin => .ok (.Begin, Js.null)
    | .ok .End => .ok (.End, Js.null)

/-- One regex match, with the fields the source reads: `match.index`,
`match[0]` (full match), `match[1]` (comment group), `match[2]` (the text
after the directive prefix). -/
structure RawMatch where
  start : Nat
  fullMatch : List Char
  comment : List Char
  body : List Char

/-- `extractDirectives`: parse each match in order; a parse failure is caught,
decorated with the match's resolved position via `setPosition`, and
rethrown.  `padding` is the full match minus the comment group. -/
def extractDirectives (jsonParse : String → Option Js) (text : List Char) :
    List RawMatch → Except InvalidSourceError (List Directive)
  | [] => .ok []
  | m :: ms =>
    match parseDirective jsonParse m.body with
    | .error e =>
      .error (match positionFromOffset text m.start with
        | some p => e.setPosition p
        | none => e)
    | .ok (ty, arg) =>
      match extractDirectives jsonParse text ms with
      | .error e => .error e
      | .ok ds =>
        .ok (⟨ty, arg, m.fullMatch.take (m.fullMatch.length - m.comment.length),
          m.start, m.start + m.fullMatch.length⟩ :: ds)

/-- `enterScope` (with `enterEmit` inlined in the `Emit` branch): the stack
holds the saved `data` of the enclosing scopes, so the stack height is the
source's `scopes` counter; end of input with a nonempty stack is the
`scopes > 0` structural error, and a bare `End` at the root returns the
regions collected so far (the source's early `return index`). -/
def enterScope (text : List Char) :
    List Directive → List Js → Js → List InjectableRegion →
    Except InvalidSourceError (List InjectableRegion)
  | [], [], _, regions => .ok regions
  | [], _ :: _, _, _ =>
    .error (invalidRegionError "All scopes should end with End directive." none)
  | directive :: rest, stack, data, regions =>
    match directive.type with
    | .Begin => enterScope text rest (data :: stack) data regions
    | .End =>
      match stack with
      | [] => .ok regions
      | parent :: stack' => enterScope text rest stack' parent regions
    | .Assign => enterScope text rest stack (assignStep data directive.arg) regions
    | .Merge => enterScope text rest stack (mergeStep data directive.arg) regions
    | .Emit =>
      match rest with
      | next :: rest' =>
        match next.type with
        | .End => enterScope text rest' stack data
            (regions ++ [⟨directive.arg, data, directive.padding, directive.end_, next.start⟩])
        | _ => .error (invalidRegionError "Emit region should not contain any directives"
            (positionFromOffset text next.start))
      | [] => .error (invalidRegionError "Emit region should end with End directive"
          (positionFromOffset text directive.end_))

/-- `extractRegions`: tokenize (the matches stand for the regex scan), parse,
then resolve from the root scope with the given initial data. -/
def extractRegions (jsonParse : String → Option Js) (text : List Char)
    (rawMatches : List RawMatch) (data : Js) :
    Except InvalidSourceError (List InjectableRegion) :=
  match extractDirectives jsonParse text rawMatches with
  | .error e => .error e
  | .ok directives => enterScope text directives [] data []

/-- `ensureStringStartsWithNewline`. -/
def ensureStringStartsWithNewline (s : List Char) : List Char :=
  match s with
  | [] => ['\n']
  | c :: rest => if c = '\n' then c :: rest else '\n' :: c :: rest

/-- `ensureStringEndsWithNewline`. -/
def ensureStringEndsWithNewline (s : List Char) : List Char :=
  match s with
  | [] => ['\n']
  | c :: rest => if (c :: rest).getLast? = some '\n' then c :: rest else (c :: rest) ++ ['\n']

/-- The splicing loop of `inject`: before each region append the text up to
`region.start` and the normalized render output, then move the cursor to
`region.end`; afterwards append the text from the cursor on. -/
def injectLoop (text : List Char) (cb : InjectableRegion → List Char) :
    List InjectableRegion → Nat → List Char → List Char
  | [], start, r => r ++ text.drop start
  | region :: rest, start, r =>
    injectLoop text cb rest region.end_
      (r ++ jsSubstring text start region.start ++
        ensureStringStartsWithNewline (ensureStringEndsWithNewline (cb region)))

/-- `inject`.  Note the source calls `extractRegions(text, directiveMatcher)`
without forwarding its own `data` parameter, so extraction always starts
from the default `{}`. -/
def inject (jsonParse : String → Option Js) (text : List Char)
    (rawMatches : List RawMatch) (cb : InjectableRegion → List Char) (_data : Js) :
    Except InvalidSourceError (List Char) :=
  match extractRegions jsonParse text rawMatches (Js.obj []) with
  | .error e => .error e
  | .ok regions => .ok (injectLoop text cb regions 0 [])

/-! ### Sample inputs used by witnesses and counterexamples -/

/-- A concrete stand-in for `JSON.parse`, defined on the argument strings the
sample inputs feed it. -/
def jsonParseA : String → Option Js :=
  fun s => if s = "[]" then some (Js.arr []) else none

/-- Sample text `"// inj:emit()\n// inj:end\n"`. -/
def textA : List Char := "// inj:emit()\n// inj:end\n".data

/-- The match of the `emit()` line of `textA` at offset 0. -/
def matchA1 : RawMatch := ⟨0, "// inj:emit()".data, "// inj:emit()".data, "emit()".data⟩

/-- The match of the `end` line of `textA` at offset 14. -/
def matchA2 : RawMatch := ⟨14, "// inj:end".data, "// inj:end".data, "end".data⟩

/-- The tokenizer output for `textA`. -/
def rawMatchesA : List RawMatch := [matchA1, matchA2]

/-- Scalar (non-object, non-array) JSON values. -/
def isScalarJs : Js → Bool
  | .null => true
  | .bool _ => true
  | .num _ => true
  | .str _ => true
  | .arr _ => false
  | .obj _ => false

/-- A second concrete `JSON.parse` stand-in, for inputs whose directives carry
`[]` or `\x7b\x7d` arguments. -/
def jsonParseB : String → Option Js :=
  fun s =>
    if s = "[]" then some (Js.arr [])
    else if s = "\x7b\x7d" then some (Js.obj [])
    else none

/-- Sample text whose `emit` region illegally contains an `assign` directive. -/
def textB : List Char := "// inj:emit()\n// inj:assign(\x7b\x7d)\n".data

/-- Tokenizer output for `textB`. -/
def rawMatchesB : List RawMatch :=
  [⟨0, "// inj:emit()".data, "// inj:emit()".data, "emit()".data⟩,
   ⟨14, "// inj:assign(\x7b\x7d)".data, "// inj:assign(\x7b\x7d)".data, "assign(\x7b\x7d)".data⟩]

/-- A directive block that a child scope consumes exactly: starting from
relative depth `n`, `Begin` descends, `End` ascends (never past the block's
own opener), `Emit` is immediately followed by its `End`, and the block ends
back at depth 0. -/
def balancedBlock : List Directive → Nat → Bool
  | [], n => n == 0
  | d :: rest, n =>
    match d.type with
    | .Begin => balancedBlock rest (n + 1)
    | .End =>
      match n with
      | 0 => false
      | m + 1 => balancedBlock rest m
    | .Assign => balancedBlock rest n
    | .Merge => balancedBlock rest n
    | .Emit =>
      match rest with
      | next :: rest' =>
        match next.type with
        | .End => balancedBlock rest' n
        | _ => false
      | [] => false

/-- Well-formedness of a directive list as the tokenizer produces it: each
directive's span is nonempty and inside the text, and spans are
non-overlapping in source order. -/
def DirectivesWF (len : Nat) (ds : List Directive) : Prop :=
  (∀ d ∈ ds, d.start < d.end_ ∧ d.end_ ≤ len) ∧
  ds.Pairwise (fun a b => a.end_ ≤ b.start)

/-- Well-formedness of a match list as a global regex scan produces it:
matches are nonempty, inside the text, non-overlapping and in source
order. -/
def MatchesWF (text : List Char) (ms : List RawMatch) : Prop :=
  (∀ m ∈ ms, m.fullMatch ≠ [] ∧ m.start + m.fullMatch.length ≤ text.length) ∧
  ms.Pairwise (fun a b => a.start + a.fullMatch.length ≤ b.start)

/-- Sample text with two emit regions. -/
def textD : List Char :=
  "// inj:emit()\n// inj:end\n// inj:emit()\n// inj:end\n".data

/-- Tokenizer output for `textD`. -/
def rawMatchesD : List RawMatch :=
  [⟨0, "// inj:emit()".data, "// inj:emit()".data, "emit()".data⟩,
   ⟨14, "// inj:end".data, "// inj:end".data, "end".data⟩,
   ⟨25, "// inj:emit()".data, "// inj:emit()".data, "emit()".data⟩,
   ⟨39, "// inj:end".data, "// inj:end".data, "end".data⟩]

/-! ### Basic unfolding lemma for the resolver -/

/-- One-step unfolding of `enterScope` on a nonempty directive list, usable
when the tail and the stack are symbolic. -/
theorem enterScope_cons (text : List Char) (directive : Directive)
    (rest : List Directive) (stack : List Js) (data : Js)
    (regions : List InjectableRegion) :
    enterScope text (directive :: rest) stack data regions =
      match directive.type with
      | .Begin => enterScope text rest (data :: stack) data regions
      | .End =>
        match stack with
        | [] => .ok regions
        | parent :: stack' => enterScope text rest stack' parent regions
      | .Assign => enterScope text rest stack (assignStep data directive.arg) regions
      | .Merge => enterScope text rest stack (mergeStep data directive.arg) regions
      | .Emit =>
        match rest with
        | next :: rest' =>
          match next.type with
          | .End => enterScope text rest' stack data
              (regions ++ [⟨directive.arg, data, directive.padding, directive.end_, next.start⟩])
          | _ => .error (invalidRegionError "Emit region should not contain any directives"
              (positionFromOffset text next.start))
        | [] => .error (invalidRegionError "Emit region should end with End directive"
            (positionFromOffset text directive.end_)) := by
  cases rest <;> cases stack <;> cases htype : directive.type <;> simp [enterScope, htype]

/-! ### Shared lookup lemmas for the spread and merge operations -/

/-- Lookup in an appended field list takes the first list's binding when it
exists. -/
theorem lookupField_append (l₁ l₂ : List (String × Js)) (k : String) :
    lookupField (l₁ ++ l₂) k =
      match lookupField l₁ k with
      | some v => some v
      | none => lookupField l₂ k := by
  induction l₁ with
  | nil => simp [lookupField]
  | cons kv t ih =>
    obtain ⟨k', v⟩ := kv
    by_cases h : k' = k <;> simp [lookupField, h, ih]

/-- Lookup in the overridden-copy part of a spread: keys of `d` keep their
place, values are taken from `a` when `a` binds the key. -/
theorem lookupField_spread_map (d a : List (String × Js)) (k : String) :
    lookupField (d.map (fun kv => match lookupField a kv.1 with
      | some w => (kv.1, w)
      | none => kv)) k =
      match lookupField d k with
      | some v => some (match lookupField a k with | some w => w | none => v)
      | none => none := by
  induction d with
  | nil => simp [lookupField]
  | cons kv t ih =>
    obtain ⟨k', v⟩ := kv
    by_cases h : k' = k
    · subst h
      cases ha : lookupField a k' <;> simp [lookupField, ha]
    · cases ha : lookupField a k' <;> simp [lookupField, ha, h, ih]

/-- Lookup in the new-keys part of a spread: bindings whose key occurs in `d`
are filtered away, the rest answer as in `a`. -/
theorem lookupField_spread_filter (d a : List (String × Js)) (k : String) :
    lookupField (a.filter (fun kv => (lookupField d kv.1).isNone)) k =
      match lookupField d k with
      | some _ => none
      | none => lookupField a k := by
  induction a with
  | nil => cases lookupField d k <;> simp [lookupField]
  | cons kv t ih =>
    obtain ⟨k', v⟩ := kv
    by_cases h : k' = k
    · subst h
      cases hd : lookupField d k' <;> simp [lookupField, hd, ih]
    · cases hd : lookupField d k' <;> cases hd' : lookupField d k' <;>
        simp_all [lookupField, h, ih]

/-- Property lookup after a JS object spread `{...d, ...a}`: keys of `a` win,
other keys fall back to `d`. -/
theorem lookupField_jsSpread2 (d a : List (String × Js)) (k : String) :
    lookupField (jsSpread2 d a) k =
      match lookupField a k with
      | some v => some v
      | none => lookupField d k := by
  rw [jsSpread2, lookupField_append, lookupField_spread_map, lookupField_spread_filter]
  cases hd : lookupField d k <;> cases ha : lookupField a k <;> simp

/-! ### Claim C8 — `Assign` is a shallow top-level overlay -/

/-- Claim C8: an `Assign` directive with argument object `a` replaces the
scope data `d` by `d` overlaid with `a` at the top level only: `enterScope`
continues with `assignStep`, and after the overlay every key bound by `a`
answers with `a`'s value wholesale while all other keys answer as in `d`. -/
theorem assign_shallow_overlay (text : List Char) (dir : Directive)
    (ds : List Directive) (stack : List Js) (d a : List (String × Js))
    (acc : List InjectableRegion)
    (htype : dir.type = .Assign) (harg : dir.arg = Js.obj a) :
    enterScope text (dir :: ds) stack (Js.obj d) acc =
      enterScope text ds stack (assignStep (Js.obj d) (Js.obj a)) acc ∧
    ∀ k, lookupField (jsSpread2 d a) k =
      match lookupField a k with
      | some v => some v
      | none => lookupField d k := by
  constructor
  · obtain ⟨ty, arg, pad, st, en⟩ := dir
    simp only at htype harg
    subst htype; subst harg
    rfl
  · exact fun k => lookupField_jsSpread2 d a k

/-- Witness for C8, at the spec's own example: assigning `{a:1}` then
`{a:{b:2}}` yields `data.a = {b:2}` (replaced wholesale), and the resolver
steps through the `Assign` directive accordingly. -/
theorem assign_shallow_overlay_witness :
    enterScope [] [⟨.Assign, Js.obj [("a", Js.obj [("b", Js.num 2)])], [], 0, 1⟩] []
        (Js.obj [("a", Js.num 1)]) [] =
      enterScope [] [] []
        (assignStep (Js.obj [("a", Js.num 1)]) (Js.obj [("a", Js.obj [("b", Js.num 2)])])) [] ∧
    lookupField (jsSpread2 [("a", Js.num 1)] [("a", Js.obj [("b", Js.num 2)])]) "a" =
      some (Js.obj [("b", Js.num 2)]) := by
  have h := assign_shallow_overlay [] ⟨.Assign, Js.obj [("a", Js.obj [("b", Js.num 2)])], [], 0, 1⟩
    [] [] [("a", Js.num 1)] [("a", Js.obj [("b", Js.num 2)])] [] rfl rfl
  exact ⟨h.1, (h.2 "a").trans rfl⟩

/-! ### Claim C4 — newline normalization of the render output -/

/-- Counterexample to C4: the normalizers only ensure the presence of a
newline; a render output beginning and ending with two newlines is spliced
unchanged, so the spliced string does not begin with exactly one newline. -/
theorem newline_normalization_cex :
    ensureStringStartsWithNewline (ensureStringEndsWithNewline
        ('\n' :: '\n' :: 'x' :: '\n' :: '\n' :: [])) =
      '\n' :: '\n' :: 'x' :: '\n' :: '\n' :: [] ∧
    (('\n' :: '\n' :: 'x' :: '\n' :: '\n' :: []).takeWhile (fun c => c = '\n')).length ≠ 1 := by
  exact ⟨rfl, by decide⟩

/-- The result of `ensureStringEndsWithNewline` always ends with a newline. -/
theorem ensureEnds_getLast (s : List Char) :
    (ensureStringEndsWithNewline s).getLast? = some '\n' := by
  match s with
  | [] => rfl
  | c :: rest =>
    rw [ensureStringEndsWithNewline]
    by_cases h : (c :: rest).getLast? = some '\n'
    · simp [h]
    · rw [if_neg h]
      exact List.getLast?_concat _

/-- `ensureStringStartsWithNewline` never changes the last character of a
nonempty string. -/
theorem ensureStarts_getLast (c : Char) (rest : List Char) :
    (ensureStringStartsWithNewline (c :: rest)).getLast? = (c :: rest).getLast? := by
  rw [ensureStringStartsWithNewline]
  by_cases h : c = '\n'
  · simp [h]
  · simp [h, List.getLast?_cons_cons]

/-- The result of `ensureStringStartsWithNewline` always starts with a
newline. -/
theorem ensureStarts_head (s : List Char) :
    (ensureStringStartsWithNewline s).head? = some '\n' := by
  match s with
  | [] => rfl
  | c :: rest =>
    rw [ensureStringStartsWithNewline]
    by_cases h : c = '\n' <;> simp [h]

/-- Amendment of C4: the spliced string is `render(region)` normalized to
begin and end with **at least** one newline.  Exactly: an empty render
output becomes the single newline; otherwise exactly one newline is
prepended when the output does not begin with one and exactly one newline
is appended when it does not end with one, and output already framed by
newlines is spliced byte-identically (extra newlines are preserved). -/
theorem newline_normalization_amended (s : List Char) :
    ensureStringStartsWithNewline (ensureStringEndsWithNewline s) =
      (if s = [] then ['\n']
       else (if s.head? = some '\n' then [] else ['\n']) ++ s ++
         (if s.getLast? = some '\n' then [] else ['\n'])) ∧
    (ensureStringStartsWithNewline (ensureStringEndsWithNewline s)).head? = some '\n' ∧
    (ensureStringStartsWithNewline (ensureStringEndsWithNewline s)).getLast? = some '\n' := by
  refine ⟨?_, ensureStarts_head _, ?_⟩
  · match s with
    | [] => rfl
    | c :: rest =>
      rw [ensureStringEndsWithNewline]
      by_cases hlast : (c :: rest).getLast? = some '\n'
      · rw [if_pos hlast, ensureStringStartsWithNewline]
        by_cases hc : c = '\n'
        · subst hc
          rw [if_pos rfl]
          simp [hlast]
        · rw [if_neg hc]
          simp [hlast, hc]
      · rw [if_neg hlast, List.cons_append, ensureStringStartsWithNewline]
        by_cases hc : c = '\n'
        · subst hc
          rw [if_pos rfl]
          simp [hlast]
        · rw [if_neg hc]
          simp [hlast, hc]
  · match h : ensureStringEndsWithNewline s with
    | [] =>
      have := ensureEnds_getLast s
      rw [h] at this
      simp at this
    | c :: rest =>
      rw [ensureStarts_getLast, ← h, ensureEnds_getLast]

/-- Witness for the amended C4 at concrete render outputs: `"x"` gains
exactly one newline at each end, the empty output becomes a single newline,
and an already framed output is unchanged. -/
theorem newline_normalization_amended_witness :
    ensureStringStartsWithNewline (ensureStringEndsWithNewline ['x']) = ['\n', 'x', '\n'] ∧
    ensureStringStartsWithNewline (ensureStringEndsWithNewline []) = ['\n'] ∧
    ensureStringStartsWithNewline (ensureStringEndsWithNewline ['\n', 'a', '\n']) =
      ['\n', 'a', '\n'] := by
  refine ⟨?_, ?_, ?_⟩
  · exact (newline_normalization_amended ['x']).1.trans (by decide)
  · exact (newline_normalization_amended []).1.trans (by decide)
  · exact (newline_normalization_amended ['\n', 'a', '\n']).1.trans (by decide)

/-! ### Claim C5 — an `Emit` must be followed by exactly one `End` -/

/-- Claim C5: at an `Emit` directive, if the next directive is `End` exactly
one region `{args, data, padding, start := emit.end, end := next.start}` is
appended and traversal resumes past the pair; any other next directive
aborts with an Invalid Region error at that directive's position; an
exhausted stream aborts with an Invalid Region error (at the emit
directive's own end offset). -/
theorem emit_region_rule (text : List Char) (dir next : Directive)
    (ds : List Directive) (stack : List Js) (data : Js)
    (acc : List InjectableRegion) (htype : dir.type = .Emit) :
    (next.type = .End →
      enterScope text (dir :: next :: ds) stack data acc =
        enterScope text ds stack data
          (acc ++ [⟨dir.arg, data, dir.padding, dir.end_, next.start⟩])) ∧
    (next.type ≠ .End →
      enterScope text (dir :: next :: ds) stack data acc =
        .error (invalidRegionError "Emit region should not contain any directives"
          (positionFromOffset text next.start))) ∧
    (enterScope text [dir] stack data acc =
      .error (invalidRegionError "Emit region should end with End directive"
        (positionFromOffset text dir.end_))) := by
  obtain ⟨ty, arg, pad, st, en⟩ := dir
  simp only at htype
  subst htype
  refine ⟨?_, ?_, ?_⟩
  · intro h
    obtain ⟨nty, narg, npad, nst, nen⟩ := next
    simp only at h
    subst h
    rfl
  · intro h
    obtain ⟨nty, narg, npad, nst, nen⟩ := next
    simp only at h
    cases nty
    · rfl
    · exact absurd rfl h
    · rfl
    · rfl
    · rfl
  · cases stack <;> rfl

/-- Witness for C5: a concrete `emit`/`end` pair yields exactly its region; a
concrete `emit`/`assign` pair and a trailing `emit` yield Invalid Region
errors. -/
theorem emit_region_rule_witness :
    enterScope [] [⟨.Emit, Js.arr [], [], 0, 13⟩, ⟨.End, Js.null, [], 14, 24⟩] []
        (Js.obj []) [] =
      .ok [⟨Js.arr [], Js.obj [], [], 13, 14⟩] ∧
    enterScope [] [⟨.Emit, Js.arr [], [], 0, 13⟩, ⟨.Assign, Js.obj [], [], 14, 24⟩] []
        (Js.obj []) [] =
      .error (invalidRegionError "Emit region should not contain any directives"
        (positionFromOffset [] 14)) ∧
    enterScope [] [⟨.Emit, Js.arr [], [], 0, 13⟩] [] (Js.obj []) [] =
      .error (invalidRegionError "Emit region should end with End directive"
        (positionFromOffset [] 13)) := by
  refine ⟨?_, ?_, ?_⟩
  · exact ((emit_region_rule [] ⟨.Emit, Js.arr [], [], 0, 13⟩ ⟨.End, Js.null, [], 14, 24⟩
      [] [] (Js.obj []) [] rfl).1 rfl).trans rfl
  · exact (emit_region_rule [] ⟨.Emit, Js.arr [], [], 0, 13⟩ ⟨.Assign, Js.obj [], [], 14, 24⟩
      [] [] (Js.obj []) [] rfl).2.1 (by decide)
  · exact (emit_region_rule [] ⟨.Emit, Js.arr [], [], 0, 13⟩ ⟨.End, Js.null, [], 14, 24⟩
      [] [] (Js.obj []) [] rfl).2.2

/-! ### Claim C6 — unclosed `Begin` fails, bare root `End` is accepted -/

/-- Claim C6: reaching the end of the directive list with at least one open
`Begin` scope (nonempty stack) is an Invalid Region error — in particular a
single trailing `Begin` fails — while an `End` directive at the document
root (empty stack) terminates the traversal without error. -/
theorem scope_closing_rule (text : List Char) (stack : List Js) (data : Js)
    (acc : List InjectableRegion) :
    (stack ≠ [] →
      enterScope text [] stack data acc =
        .error (invalidRegionError "All scopes should end with End directive." none)) ∧
    (∀ bd, bd.type = .Begin →
      enterScope text [bd] stack data acc =
        .error (invalidRegionError "All scopes should end with End directive." none)) ∧
    (∀ ed ds, ed.type = .End →
      enterScope text (ed :: ds) [] data acc = .ok acc) := by
  refine ⟨?_, ?_, ?_⟩
  · intro h
    cases stack with
    | nil => exact absurd rfl h
    | cons a t => rfl
  · intro bd hbd
    obtain ⟨ty, arg, pad, st, en⟩ := bd
    simp only at hbd
    subst hbd
    rfl
  · intro ed ds hed
    obtain ⟨ty, arg, pad, st, en⟩ := ed
    simp only at hed
    subst hed
    rfl

/-- Witness for C6 at concrete directives. -/
theorem scope_closing_rule_witness :
    enterScope [] [⟨.Begin, Js.null, [], 0, 12⟩] [] (Js.obj []) [] =
      .error (invalidRegionError "All scopes should end with End directive." none) ∧
    enterScope [] [⟨.End, Js.null, [], 0, 10⟩, ⟨.Begin, Js.null, [], 11, 23⟩] []
        (Js.obj []) [] = .ok [] := by
  refine ⟨?_, ?_⟩
  · exact (scope_closing_rule [] [] (Js.obj []) []).2.1 ⟨.Begin, Js.null, [], 0, 12⟩ rfl
  · exact (scope_closing_rule [] [] (Js.obj []) []).2.2 ⟨.End, Js.null, [], 0, 10⟩
      [⟨.Begin, Js.null, [], 11, 23⟩] rfl

/-! ### Claim C1 — `inject` drops its initial data argument -/

/-- Claim C1 is contradicted by the source: `inject` declares
`data = {}` but calls `extractRegions(text, directiveMatcher)` without
forwarding it, so extraction is always seeded with `{}`.  At the failing
input, `extractRegions` seeded with `{x:1}` reports that data in its region,
while `inject` called with the same initial data renders the region with
empty data (the callback below distinguishes the two). -/
theorem inject_drops_initial_data :
    extractRegions jsonParseA textA rawMatchesA (Js.obj [("x", Js.num 1)]) =
      .ok [⟨Js.arr [], Js.obj [("x", Js.num 1)], [], 13, 14⟩] ∧
    inject jsonParseA textA rawMatchesA
        (fun r => match r.data with
          | Js.obj [] => "EMPTY".data
          | _ => "DATA".data)
        (Js.obj [("x", Js.num 1)]) =
      .ok "// inj:emit()\nEMPTY\n// inj:end\n".data := by
  exact ⟨rfl, rfl⟩

/-! ### Claim C3 — `Merge` is a deep recursive merge -/

/-- Counterexample to C3: lodash `merge` merges arrays index-wise, so merging
`{a:[9]}` into data `{a:[1,2,3]}` yields `a = [9,2,3]`; the claim's
"arrays ... overwritten wholesale" would require `a = [9]`. -/
theorem merge_deep_array_cex :
    enterScope [] [⟨.Merge, Js.obj [("a", Js.arr [Js.num 9])], [], 0, 1⟩,
        ⟨.Emit, Js.arr [], [], 2, 3⟩, ⟨.End, Js.null, [], 4, 5⟩] []
      (Js.obj [("a", Js.arr [Js.num 1, Js.num 2, Js.num 3])]) [] =
      .ok [⟨Js.arr [], Js.obj [("a", Js.arr [Js.num 9, Js.num 2, Js.num 3])], [], 3, 4⟩] ∧
    Js.obj [("a", Js.arr [Js.num 9, Js.num 2, Js.num 3])] ≠
      Js.obj [("a", Js.arr [Js.num 9])] := by
  constructor
  · simp [enterScope, mergeStep, mergeJs, mergeObjFields, mergeField, mergeArrElems]
  · simp

/-- A key that occurs nowhere in a field list has no binding. -/
theorem lookupField_eq_none_of_not_mem (l : List (String × Js)) (k : String)
    (h : k ∉ l.map Prod.fst) : lookupField l k = none := by
  induction l with
  | nil => rfl
  | cons kv t ih =>
    obtain ⟨k', v⟩ := kv
    simp only [List.map_cons, List.mem_cons] at h
    push_neg at h
    have hne : ¬ k' = k := fun hh => h.1 hh.symm
    simp [lookupField, hne, ih h.2]

/-- Lookup after merging one binding: the merged key answers with the
recursive merge (or the new value when absent), other keys are untouched. -/
theorem lookupField_mergeField (dst : List (String × Js)) (k₀ : String) (v₀ : Js)
    (k : String) :
    lookupField (mergeField dst k₀ v₀) k =
      if k₀ = k then
        match lookupField dst k with
        | some dv => some (mergeJs dv v₀)
        | none => some v₀
      else lookupField dst k := by
  induction dst with
  | nil =>
    by_cases h : k₀ = k <;> simp [mergeField, lookupField, h]
  | cons kv t ih =>
    obtain ⟨k', v'⟩ := kv
    by_cases h1 : k' = k₀
    · subst h1
      by_cases h2 : k' = k
      · subst h2
        simp [mergeField, lookupField]
      · simp [mergeField, lookupField, h2]
    · by_cases h2 : k' = k
      · subst h2
        have : ¬ k₀ = k' := fun hh => h1 hh.symm
        simp [mergeField, h1, lookupField, this]
      · simp [mergeField, h1, lookupField, h2, ih]

/-- Lookup after merging a duplicate-free source object into a destination:
keys of both sides merge recursively, keys of one side pass through. -/
theorem lookupField_mergeObjFields (src : List (String × Js))
    (hsrc : (src.map Prod.fst).Nodup) (dst : List (String × Js)) (k : String) :
    lookupField (mergeObjFields dst src) k =
      match lookupField dst k, lookupField src k with
      | some dv, some sv => some (mergeJs dv sv)
      | some dv, none => some dv
      | none, some sv => some sv
      | none, none => none := by
  induction src generalizing dst with
  | nil =>
    cases h : lookupField dst k <;> simp [mergeObjFields, lookupField, h]
  | cons kv rest ih =>
    obtain ⟨k₀, v₀⟩ := kv
    simp only [List.map_cons, List.nodup_cons] at hsrc
    rw [mergeObjFields, ih hsrc.2, lookupField_mergeField]
    by_cases h : k₀ = k
    · subst h
      have hnone : lookupField rest k₀ = none :=
        lookupField_eq_none_of_not_mem rest k₀ hsrc.1
      cases hd : lookupField dst k₀ <;> simp [hnone, lookupField, hd]
    · have : ¬ k₀ = k := h
      cases hd : lookupField dst k <;> simp [lookupField, this, hd]

/-- Merging a binding with a fresh key appends it. -/
theorem mergeField_of_not_mem (dst : List (String × Js)) (k₀ : String) (v₀ : Js)
    (h : lookupField dst k₀ = none) : mergeField dst k₀ v₀ = dst ++ [(k₀, v₀)] := by
  induction dst with
  | nil => simp [mergeField]
  | cons kv t ih =>
    obtain ⟨k', v'⟩ := kv
    by_cases h1 : k' = k₀
    · subst h1
      simp [lookupField] at h
    · rw [lookupField, if_neg h1] at h
      simp [mergeField, h1, ih h]

/-- Merging a key-disjoint, duplicate-free source into a destination is plain
concatenation. -/
theorem mergeObjFields_of_disjoint (src : List (String × Js))
    (hsrc : (src.map Prod.fst).Nodup) (dst : List (String × Js))
    (hdisj : ∀ kv ∈ src, lookupField dst kv.1 = none) :
    mergeObjFields dst src = dst ++ src := by
  induction src generalizing dst with
  | nil => simp [mergeObjFields]
  | cons kv rest ih =>
    obtain ⟨k₀, v₀⟩ := kv
    simp only [List.map_cons, List.nodup_cons] at hsrc
    have h0 : lookupField dst k₀ = none := hdisj (k₀, v₀) (by simp)
    have hdisj' : ∀ kv ∈ rest, lookupField (dst ++ [(k₀, v₀)]) kv.1 = none := by
      intro kv hkv
      rw [lookupField_append]
      have h1 : lookupField dst kv.1 = none := hdisj kv (List.mem_cons_of_mem _ hkv)
      have hmem : kv.1 ∈ rest.map Prod.fst := List.mem_map_of_mem Prod.fst hkv
      have hne : ¬ k₀ = kv.1 := fun hh => hsrc.1 (hh ▸ hmem)
      simp [h1, lookupField, hne]
    rw [mergeObjFields, mergeField_of_not_mem dst k₀ v₀ h0, ih hsrc.2 _ hdisj']
    simp

/-- Merging a duplicate-free object into `{}` reproduces it. -/
theorem mergeObjFields_nil (d : List (String × Js)) (hd : (d.map Prod.fst).Nodup) :
    mergeObjFields [] d = d := by
  rw [mergeObjFields_of_disjoint d hd [] (fun kv _ => rfl)]
  simp

/-- Index-wise characterization of the lodash array merge: common indices
merge recursively, extra elements of either array are kept. -/
theorem mergeArrElems_getElem? (xs : List Js) : ∀ (ys : List Js) (i : Nat),
    (mergeArrElems xs ys)[i]? =
      match xs[i]?, ys[i]? with
      | some x, some y => some (mergeJs x y)
      | some x, none => some x
      | none, some y => some y
      | none, none => none := by
  induction xs with
  | nil =>
    intro ys i
    cases ys with
    | nil => simp [mergeArrElems]
    | cons y yt => cases h : (y :: yt)[i]? <;> simp [mergeArrElems, h]
  | cons x xt ih =>
    intro ys i
    cases ys with
    | nil => cases h : (x :: xt)[i]? <;> simp [mergeArrElems, h]
    | cons y yt =>
      cases i with
      | zero => simp [mergeArrElems]
      | succ n => simpa [mergeArrElems] using ih yt n

/-- Amendment of C3: a `Merge` directive with argument object `m` replaces
the scope data `d` by the lodash-style deep merge of `m` into `d`: nested
objects combine key-wise at every depth, arrays combine index-wise (incoming
elements overwrite position-wise, extra elements of `d`'s array are kept),
and scalars in `d` are overwritten wholesale by the incoming value. -/
theorem merge_deep_recursive_amended (text : List Char) (dir : Directive)
    (ds : List Directive) (stack : List Js) (d m : List (String × Js))
    (acc : List InjectableRegion)
    (htype : dir.type = .Merge) (harg : dir.arg = Js.obj m)
    (hd : (d.map Prod.fst).Nodup) (hm : (m.map Prod.fst).Nodup) :
    enterScope text (dir :: ds) stack (Js.obj d) acc =
      enterScope text ds stack (mergeStep (Js.obj d) (Js.obj m)) acc ∧
    mergeStep (Js.obj d) (Js.obj m) = Js.obj (mergeObjFields d m) ∧
    (∀ k, lookupField (mergeObjFields d m) k =
      match lookupField d k, lookupField m k with
      | some dv, some mv => some (mergeJs dv mv)
      | some dv, none => some dv
      | none, some mv => some mv
      | none, none => none) ∧
    (∀ (xs ys : List Js) (i : Nat), (mergeArrElems xs ys)[i]? =
      match xs[i]?, ys[i]? with
      | some x, some y => some (mergeJs x y)
      | some x, none => some x
      | none, some y => some y
      | none, none => none) ∧
    (∀ dv sv, isScalarJs sv = true → mergeJs dv sv = sv) := by
  refine ⟨?_, ?_, ?_, ?_, ?_⟩
  · obtain ⟨ty, arg, pad, st, en⟩ := dir
    simp only at htype harg
    subst htype; subst harg
    rfl
  · rw [mergeStep]
    simp only [mergeJs, mergeObjFields_nil d hd]
  · exact fun k => lookupField_mergeObjFields m hm d k
  · exact fun xs ys i => mergeArrElems_getElem? xs ys i
  · intro dv sv hsv
    cases sv <;> simp [isScalarJs] at hsv <;> cases dv <;> simp [mergeJs]

/-- Witness for the amended C3 at the spec's example: merging `{a:{y:2}}`
into `{a:{x:1}}` yields `data.a = {x:1, y:2}`. -/
theorem merge_deep_recursive_amended_witness :
    mergeStep (Js.obj [("a", Js.obj [("x", Js.num 1)])])
        (Js.obj [("a", Js.obj [("y", Js.num 2)])]) =
      Js.obj [("a", Js.obj [("x", Js.num 1), ("y", Js.num 2)])] := by
  have h := merge_deep_recursive_amended [] ⟨.Merge, Js.obj [("a", Js.obj [("y", Js.num 2)])], [], 0, 1⟩
    [] [] [("a", Js.obj [("x", Js.num 1)])] [("a", Js.obj [("y", Js.num 2)])] []
    rfl rfl (by simp) (by simp)
  rw [h.2.1]
  simp [mergeObjFields, mergeField, mergeJs]

/-! ### Claim C2 — error messages and the `[line:col]` prefix -/

/-- Counterexample to C2: the structural fault in `textB` propagates out of
both `extractRegions` and `inject` as an Invalid Region error whose message
is exactly the raw text "Emit region should not contain any directives" —
the resolved position lives only in the separate `position` field and the
message does not begin with a `[line:col]` prefix. -/
theorem region_error_unprefixed_cex :
    extractRegions jsonParseB textB rawMatchesB (Js.obj []) =
      .error ⟨.region, "Emit region should not contain any directives", some ⟨2, 1⟩⟩ ∧
    inject jsonParseB textB rawMatchesB (fun _ => []) (Js.obj []) =
      .error ⟨.region, "Emit region should not contain any directives", some ⟨2, 1⟩⟩ ∧
    ("Emit region should not contain any directives" : String).data.head? ≠ some '[' := by
  exact ⟨rfl, rfl, by decide⟩

/-- Errors of `directiveTypeFromString` are directive errors without a
position. -/
theorem directiveTypeFromString_error_shape (s : List Char) (e : InvalidSourceError)
    (h : directiveTypeFromString s = .error e) :
    e.kind = .directive ∧ e.position = none := by
  unfold directiveTypeFromString at h
  split_ifs at h <;>
    first
      | exact Except.noConfusion h
      | (injection h with h; subst h; exact ⟨rfl, rfl⟩)

/-- Errors of `parseObjectArg` are directive errors without a position. -/
theorem parseObjectArg_error_shape (jp : String → Option Js) (ty : DirectiveType)
    (sArg : List Char) (e : InvalidSourceError)
    (h : parseObjectArg jp ty sArg = .error e) :
    e.kind = .directive ∧ e.position = none := by
  unfold parseObjectArg at h
  cases hj : jp (String.mk sArg) with
  | none =>
    simp only [hj] at h
    injection h with h
    subst h
    exact ⟨rfl, rfl⟩
  | some arg =>
    simp only [hj] at h
    cases arg <;>
      first
        | exact Except.noConfusion h
        | (injection h with h; subst h; exact ⟨rfl, rfl⟩)

/-- Errors of `parseEmitArg` are directive errors without a position. -/
theorem parseEmitArg_error_shape (jp : String → Option Js) (sArg : List Char)
    (e : InvalidSourceError) (h : parseEmitArg jp sArg = .error e) :
    e.kind = .directive ∧ e.position = none := by
  unfold parseEmitArg at h
  cases hj : jp ("[" ++ String.mk sArg ++ "]") with
  | none =>
    simp only [hj] at h
    injection h with h
    subst h
    exact ⟨rfl, rfl⟩
  | some arg => simp only [hj] at h; exact Except.noConfusion h

/-- Errors of `withClosingParen` are directive errors without a position,
provided the continuation's errors are. -/
theorem withClosingParen_error_shape (s : List Char) (pStart : Nat)
    (k : List Char → Except InvalidSourceError (DirectiveType × Js))
    (e : InvalidSourceError)
    (hk : ∀ sArg e', k sArg = .error e' → e'.kind = .directive ∧ e'.position = none)
    (h : withClosingParen s pStart k = .error e) :
    e.kind = .directive ∧ e.position = none := by
  unfold withClosingParen at h
  cases hl : jsLastIndexOf s ')' with
  | none =>
    simp only [hl] at h
    injection h with h
    subst h
    exact ⟨rfl, rfl⟩
  | some pEnd => simp only [hl] at h; exact hk _ _ h

/-- Every `parseDirective` failure is an Invalid Directive error thrown with
`position = null` (the position is only attached later, by the catch in
`extractDirectives`). -/
theorem parseDirective_error_shape (jp : String → Option Js) (s : List Char)
    (e : InvalidSourceError) (h : parseDirective jp s = .error e) :
    e.kind = .directive ∧ e.position = none := by
  unfold parseDirective at h
  cases hi : jsIndexOf s '(' with
  | some pStart =>
    simp only [hi] at h
    cases hd : directiveTypeFromString (s.take pStart) with
    | error e' =>
      simp only [hd] at h
      injection h with h
      subst h
      exact directiveTypeFromString_error_shape _ _ hd
    | ok ty =>
      simp only [hd] at h
      cases ty
      · injection h with h; subst h; exact ⟨rfl, rfl⟩
      · injection h with h; subst h; exact ⟨rfl, rfl⟩
      · exact withClosingParen_error_shape _ _ _ _
          (fun sArg e' hh => parseObjectArg_error_shape _ _ _ _ hh) h
      · exact withClosingParen_error_shape _ _ _ _
          (fun sArg e' hh => parseObjectArg_error_shape _ _ _ _ hh) h
      · exact withClosingParen_error_shape _ _ _ _
          (fun sArg e' hh => parseEmitArg_error_shape _ _ _ hh) h
  | none =>
    simp only [hi] at h
    cases hd : directiveTypeFromString s with
    | error e' =>
      simp only [hd] at h
      injection h with h
      subst h
      exact directiveTypeFromString_error_shape _ _ hd
    | ok ty =>
      simp only [hd] at h
      cases ty <;>
        first
          | exact Except.noConfusion h
          | (injection h with h; subst h; exact ⟨rfl, rfl⟩)

/-- Every `extractDirectives` failure (for matches lying inside the text, as
the regex guarantees) carries a position and a message prefixed by its
`[line:col]` rendering. -/
theorem extractDirectives_error_shape (jp : String → Option Js) (text : List Char) :
    ∀ (ms : List RawMatch) (e : InvalidSourceError),
      (∀ m ∈ ms, m.start ≤ text.length) →
      extractDirectives jp text ms = .error e →
      e.kind = .directive ∧
        ∃ p base, e.position = some p ∧ e.message = positionToString p ++ " " ++ base := by
  intro ms
  induction ms with
  | nil => intro e hb h; exact absurd h (by simp [extractDirectives])
  | cons m ms ih =>
    intro e hb h
    rw [extractDirectives] at h
    cases hp : parseDirective jp m.body with
    | error e' =>
      simp only [hp] at h
      have hsh := parseDirective_error_shape _ _ _ hp
      have hin : ¬ (m.start > text.length) := not_lt.2 (hb m (by simp))
      rw [positionFromOffset, if_neg hin] at h
      injection h with h
      subst h
      exact ⟨hsh.1, (text.take m.start).foldl advancePos ⟨1, 1⟩, e'.message, rfl, rfl⟩
    | ok pr =>
      obtain ⟨ty, arg⟩ := pr
      simp only [hp] at h
      cases hrec : extractDirectives jp text ms with
      | error e2 =>
        simp only [hrec] at h
        injection h with h
        subst h
        exact ih e2 (fun m' hm' => hb m' (List.mem_cons_of_mem _ hm')) hrec
      | ok ds => simp only [hrec] at h; exact Except.noConfusion h

/-- Every `enterScope` failure is an Invalid Region error whose message does
not begin with `[` (no `[line:col]` prefix is ever attached to it). -/
theorem enterScope_error_shape (text : List Char) (ds : List Directive)
    (stack : List Js) (data : Js) (acc : List InjectableRegion) :
    ∀ e, enterScope text ds stack data acc = .error e →
      e.kind = .region ∧ e.message.data.head? ≠ some '[' := by
  induction ds, stack, data, acc using enterScope.induct text with
  | case1 data regions => intro e h; exact absurd h (by simp [enterScope])
  | case2 stack data regions =>
    intro e h
    rw [enterScope] at h
    injection h with h
    subst h
    exact ⟨rfl, by decide⟩
  | case3 directive rest stack data regions hx ih =>
    intro e h
    rw [enterScope_cons] at h; simp only [hx] at h
    exact ih e h
  | case4 directive rest data regions hx =>
    intro e h
    rw [enterScope_cons] at h; simp only [hx] at h
    exact Except.noConfusion h
  | case5 directive rest data regions hx v stk ih =>
    intro e h
    rw [enterScope_cons] at h; simp only [hx] at h
    exact ih e h
  | case6 directive rest stack data regions hx ih =>
    intro e h
    rw [enterScope_cons] at h; simp only [hx] at h
    exact ih e h
  | case7 directive rest stack data regions hx ih =>
    intro e h
    rw [enterScope_cons] at h; simp only [hx] at h
    exact ih e h
  | case8 directive stack data regions hx next rest' hnext ih =>
    intro e h
    rw [enterScope_cons] at h; simp only [hx, hnext] at h
    exact ih e h
  | case9 directive stack data regions hx next rest' hne =>
    intro e h
    cases hnext : next.type
    · rw [enterScope_cons] at h; simp only [hx, hnext] at h
      injection h with h
      subst h
      refine ⟨rfl, ?_⟩
      show ("Emit region should not contain any directives" : String).data.head? ≠ some '['
      decide
    · exact absurd hnext hne
    · rw [enterScope_cons] at h; simp only [hx, hnext] at h
      injection h with h
      subst h
      refine ⟨rfl, ?_⟩
      show ("Emit region should not contain any directives" : String).data.head? ≠ some '['
      decide
    · rw [enterScope_cons] at h; simp only [hx, hnext] at h
      injection h with h
      subst h
      refine ⟨rfl, ?_⟩
      show ("Emit region should not contain any directives" : String).data.head? ≠ some '['
      decide
    · rw [enterScope_cons] at h; simp only [hx, hnext] at h
      injection h with h
      subst h
      refine ⟨rfl, ?_⟩
      show ("Emit region should not contain any directives" : String).data.head? ≠ some '['
      decide
  | case10 directive stack data regions hx =>
    intro e h
    rw [enterScope_cons] at h; simp only [hx] at h
    injection h with h
    subst h
    refine ⟨rfl, ?_⟩
    show ("Emit region should end with End directive" : String).data.head? ≠ some '['
    decide

/-- Amendment of C2: a fault parsing a directive (Invalid Directive) is
caught in `extractDirectives` and propagates with a message prefixed by the
`[line:col]` rendering of its resolved position; a structural fault
(Invalid Region) propagates with its raw message — the position, when
resolved at all, is carried only in the separate `position` field and the
message has no `[line:col]` prefix. -/
theorem error_report_amended (jp : String → Option Js) (text : List Char)
    (ms : List RawMatch) (d : Js) (e : InvalidSourceError)
    (hms : ∀ m ∈ ms, m.start ≤ text.length)
    (h : extractRegions jp text ms d = .error e) :
    (e.kind = .directive →
      ∃ p base, e.position = some p ∧ e.message = positionToString p ++ " " ++ base) ∧
    (e.kind = .region → e.message.data.head? ≠ some '[') := by
  unfold extractRegions at h
  cases hx : extractDirectives jp text ms with
  | error e' =>
    rw [hx] at h
    injection h with h
    subst h
    have hs := extractDirectives_error_shape jp text ms e' hms hx
    exact ⟨fun _ => hs.2, fun hr => absurd (hs.1.symm.trans hr) (by decide)⟩
  | ok ds =>
    rw [hx] at h
    have hs := enterScope_error_shape text ds [] d [] e h
    exact ⟨fun hk => absurd (hs.1.symm.trans hk) (by decide), fun _ => hs.2⟩

/-- Witness for the amended C2 at the concrete faulty input `textB`. -/
theorem error_report_amended_witness :
    ("Emit region should not contain any directives" : String).data.head? ≠ some '[' := by
  have h := error_report_amended jsonParseB textB rawMatchesB (Js.obj [])
    ⟨.region, "Emit region should not contain any directives", some ⟨2, 1⟩⟩
    (by decide) rfl
  exact h.2 rfl

/-! ### Claim C7 — scope isolation -/

/-- One-step unfolding of `balancedBlock` on a nonempty list, usable when the
tail and the depth are symbolic. -/
theorem balancedBlock_cons (d : Directive) (rest : List Directive) (n : Nat) :
    balancedBlock (d :: rest) n =
      match d.type with
      | .Begin => balancedBlock rest (n + 1)
      | .End =>
        match n with
        | 0 => false
        | m + 1 => balancedBlock rest m
      | .Assign => balancedBlock rest n
      | .Merge => balancedBlock rest n
      | .Emit =>
        match rest with
        | next :: rest' =>
          match next.type with
          | .End => balancedBlock rest' n
          | _ => false
        | [] => false := by
  cases rest <;> cases n <;> cases hx : d.type <;> simp [balancedBlock, hx]

/-- Frame property of the resolver: a balanced block consumes exactly itself —
running `enterScope` over `inner ++ rest` with `n` saved scopes on top of
`stack` steps through `inner`, never pops below those `n` entries, and
continues into `rest` with the stack restored to `stack`, for some data and
accumulated regions. -/
theorem enterScope_balanced_frame (text : List Char) :
    ∀ (inner : List Directive) (n : Nat), balancedBlock inner n = true →
      ∀ (tops : List Js), tops.length = n →
      ∀ (stack : List Js) (data : Js) (acc : List InjectableRegion)
        (rest : List Directive),
      ∃ data' acc', enterScope text (inner ++ rest) (tops ++ stack) data acc =
        enterScope text rest stack data' acc' := by
  intro inner n
  induction inner, n using balancedBlock.induct with
  | case1 n =>
    intro hbal tops htops stack data acc rest
    simp only [balancedBlock] at hbal
    have hn : n = 0 := by simpa using hbal
    subst hn
    have : tops = [] := List.length_eq_zero.mp htops
    subst this
    exact ⟨data, acc, by simp⟩
  | case2 d rest1 n hx ih =>
    intro hbal tops htops stack data acc rest
    rw [balancedBlock_cons] at hbal
    simp only [hx] at hbal
    obtain ⟨data', acc', hfr⟩ :=
      ih hbal (data :: tops) (by simp [htops]) stack data acc rest
    refine ⟨data', acc', ?_⟩
    rw [List.cons_append, enterScope_cons]
    simp only [hx]
    simpa using hfr
  | case3 d rest1 hx =>
    intro hbal tops htops stack data acc rest
    rw [balancedBlock_cons] at hbal
    simp only [hx] at hbal
    exact absurd hbal (by simp)
  | case4 d rest1 hx m ih =>
    intro hbal tops htops stack data acc rest
    rw [balancedBlock_cons] at hbal
    simp only [hx] at hbal
    cases tops with
    | nil => simp at htops
    | cons t tops' =>
      obtain ⟨data', acc', hfr⟩ :=
        ih hbal tops' (by simpa using htops) stack t acc rest
      refine ⟨data', acc', ?_⟩
      rw [List.cons_append, enterScope_cons]
      simp only [hx]
      simpa using hfr
  | case5 d rest1 n hx ih =>
    intro hbal tops htops stack data acc rest
    rw [balancedBlock_cons] at hbal
    simp only [hx] at hbal
    obtain ⟨data', acc', hfr⟩ :=
      ih hbal tops htops stack (assignStep data d.arg) acc rest
    refine ⟨data', acc', ?_⟩
    rw [List.cons_append, enterScope_cons]
    simp only [hx]
    exact hfr
  | case6 d rest1 n hx ih =>
    intro hbal tops htops stack data acc rest
    rw [balancedBlock_cons] at hbal
    simp only [hx] at hbal
    obtain ⟨data', acc', hfr⟩ :=
      ih hbal tops htops stack (mergeStep data d.arg) acc rest
    refine ⟨data', acc', ?_⟩
    rw [List.cons_append, enterScope_cons]
    simp only [hx]
    exact hfr
  | case7 d n hx next rest' hnext ih =>
    intro hbal tops htops stack data acc rest
    rw [balancedBlock_cons] at hbal
    simp only [hx, hnext] at hbal
    obtain ⟨data', acc', hfr⟩ :=
      ih hbal tops htops stack data
        (acc ++ [⟨d.arg, data, d.padding, d.end_, next.start⟩]) rest
    refine ⟨data', acc', ?_⟩
    rw [List.cons_append, List.cons_append, enterScope_cons]
    simp only [hx, hnext]
    exact hfr
  | case8 d n hx next rest' hne =>
    intro hbal tops htops stack data acc rest
    rw [balancedBlock_cons] at hbal
    cases hnext : next.type
    · simp only [hx, hnext] at hbal
      exact absurd hbal (by simp)
    · exact absurd hnext hne
    · simp only [hx, hnext] at hbal
      exact absurd hbal (by simp)
    · simp only [hx, hnext] at hbal
      exact absurd hbal (by simp)
    · simp only [hx, hnext] at hbal
      exact absurd hbal (by simp)
  | case9 d n hx =>
    intro hbal tops htops stack data acc rest
    rw [balancedBlock_cons] at hbal
    simp only [hx] at hbal
    exact absurd hbal (by simp)

/-- Claim C7: data introduced inside a `Begin`/`End` block is invisible after
the block — once the block's `End` is consumed, traversal of the remaining
directives resumes with the enclosing scope's data exactly as it was at the
`Begin`, so sibling regions emitted after the block never observe the
block's `Assign`/`Merge` mutations. -/
theorem scope_isolation (text : List Char) (bd ed : Directive)
    (hbd : bd.type = .Begin) (hed : ed.type = .End)
    (inner rest : List Directive) (stack : List Js) (data : Js)
    (acc : List InjectableRegion)
    (hb : balancedBlock inner 0 = true) :
    ∃ acc', enterScope text (bd :: (inner ++ ed :: rest)) stack data acc =
      enterScope text rest stack data acc' := by
  obtain ⟨data', acc', hfr⟩ :=
    enterScope_balanced_frame text inner 0 hb [] rfl (data :: stack) data acc (ed :: rest)
  refine ⟨acc', ?_⟩
  rw [enterScope_cons]
  simp only [hbd]
  simp only [List.nil_append] at hfr
  rw [hfr, enterScope_cons]
  simp only [hed]

/-- Witness for C7: a block assigning `{x:1}` leaves the sibling `emit` after
it with the untouched root data. -/
theorem scope_isolation_witness :
    ∃ acc', enterScope [] [⟨.Begin, Js.null, [], 0, 1⟩,
        ⟨.Assign, Js.obj [("x", Js.num 1)], [], 2, 3⟩, ⟨.End, Js.null, [], 4, 5⟩,
        ⟨.Emit, Js.arr [], [], 6, 7⟩, ⟨.End, Js.null, [], 8, 9⟩] [] (Js.obj []) [] =
      enterScope [] [⟨.Emit, Js.arr [], [], 6, 7⟩, ⟨.End, Js.null, [], 8, 9⟩] []
        (Js.obj []) acc' :=
  scope_isolation [] ⟨.Begin, Js.null, [], 0, 1⟩ ⟨.End, Js.null, [], 4, 5⟩ rfl rfl
    [⟨.Assign, Js.obj [("x", Js.num 1)], [], 2, 3⟩]
    [⟨.Emit, Js.arr [], [], 6, 7⟩, ⟨.End, Js.null, [], 8, 9⟩] [] (Js.obj []) [] (by decide)

/-! ### Claim C9 — regions are sorted and non-overlapping -/

/-- The directives produced by `extractDirectives` carry exactly the match
offsets: `start = match.index`, `end = start + match[0].length`. -/
theorem extractDirectives_offsets (jp : String → Option Js) (text : List Char) :
    ∀ (ms : List RawMatch) (ds : List Directive),
      extractDirectives jp text ms = .ok ds →
      ds.map (fun d => (d.start, d.end_)) =
        ms.map (fun m => (m.start, m.start + m.fullMatch.length)) := by
  intro ms
  induction ms with
  | nil =>
    intro ds h
    rw [extractDirectives] at h
    injection h with h
    subst h
    rfl
  | cons m ms ih =>
    intro ds h
    rw [extractDirectives] at h
    cases hp : parseDirective jp m.body with
    | error e => simp only [hp] at h; exact Except.noConfusion h
    | ok pr =>
      obtain ⟨ty, arg⟩ := pr
      simp only [hp] at h
      cases hrec : extractDirectives jp text ms with
      | error e => simp only [hrec] at h; exact Except.noConfusion h
      | ok ds' =>
        simp only [hrec] at h
        injection h with h
        subst h
        simp only [List.map_cons, List.map]
        exact congrArg _ (ih ds' hrec)

/-- Under a well-formed match list, `extractDirectives`' output is a
well-formed directive list. -/
theorem extractDirectives_wf (jp : String → Option Js) (text : List Char) :
    ∀ (ms : List RawMatch) (ds : List Directive),
      extractDirectives jp text ms = .ok ds →
      MatchesWF text ms →
      DirectivesWF text.length ds := by
  intro ms
  induction ms with
  | nil =>
    intro ds h hm
    rw [extractDirectives] at h
    injection h with h
    subst h
    exact ⟨by simp, List.Pairwise.nil⟩
  | cons m ms ih =>
    intro ds h hm
    rw [extractDirectives] at h
    cases hp : parseDirective jp m.body with
    | error e => simp only [hp] at h; exact Except.noConfusion h
    | ok pr =>
      obtain ⟨ty, arg⟩ := pr
      simp only [hp] at h
      cases hrec : extractDirectives jp text ms with
      | error e => simp only [hrec] at h; exact Except.noConfusion h
      | ok ds' =>
        simp only [hrec] at h
        injection h with h
        subst h
        have hmtail : MatchesWF text ms :=
          ⟨fun m' hm' => hm.1 m' (List.mem_cons_of_mem _ hm'),
           (List.pairwise_cons.mp hm.2).2⟩
        have hds' := ih ds' hrec hmtail
        have hmhead := hm.1 m (by simp)
        have hrel : ∀ m' ∈ ms, m.start + m.fullMatch.length ≤ m'.start :=
          (List.pairwise_cons.mp hm.2).1
        have hstarts : ∀ d' ∈ ds', m.start + m.fullMatch.length ≤ d'.start := by
          intro d' hd'
          have hmem : (d'.start, d'.end_) ∈
              ms.map (fun m' => (m'.start, m'.start + m'.fullMatch.length)) := by
            rw [← extractDirectives_offsets jp text ms ds' hrec]
            exact List.mem_map_of_mem _ hd'
          obtain ⟨m', hm', heq⟩ := List.mem_map.mp hmem
          have : m'.start = d'.start := congrArg Prod.fst heq
          rw [← this]
          exact hrel m' hm'
        constructor
        · intro d hd
          rcases List.mem_cons.mp hd with hhead | htail
          · subst hhead
            constructor
            · show m.start < m.start + m.fullMatch.length
              have : 0 < m.fullMatch.length := List.length_pos.mpr hmhead.1
              omega
            · exact hmhead.2
          · exact hds'.1 d htail
        · rw [List.pairwise_cons]
          exact ⟨fun d' hd' => hstarts d' hd', hds'.2⟩

/-- Invariant induction over the resolver: under a well-formed directive
list, every region appended has a nonempty in-bounds span lying strictly
after all earlier regions. -/
theorem enterScope_regions_wf (text : List Char) :
    ∀ (ds : List Directive) (stack : List Js) (data : Js)
      (acc rs : List InjectableRegion),
      DirectivesWF text.length ds →
      (∀ r ∈ acc, r.start ≤ r.end_ ∧ r.end_ ≤ text.length) →
      acc.Pairwise (fun a b => a.end_ < b.start) →
      (∀ r ∈ acc, ∀ d ∈ ds, r.end_ ≤ d.start) →
      enterScope text ds stack data acc = .ok rs →
      (∀ r ∈ rs, r.start ≤ r.end_ ∧ r.end_ ≤ text.length) ∧
      rs.Pairwise (fun a b => a.end_ < b.start) := by
  intro ds stack data acc
  induction ds, stack, data, acc using enterScope.induct text with
  | case1 data regions =>
    intro rs hwf hb hp hcross h
    rw [enterScope] at h
    injection h with h
    subst h
    exact ⟨hb, hp⟩
  | case2 stack data regions =>
    intro rs hwf hb hp hcross h
    rw [enterScope] at h
    exact Except.noConfusion h
  | case3 directive rest stack data regions hx ih =>
    intro rs hwf hb hp hcross h
    rw [enterScope_cons] at h
    simp only [hx] at h
    exact ih rs
      ⟨fun d hd => hwf.1 d (List.mem_cons_of_mem _ hd), (List.pairwise_cons.mp hwf.2).2⟩
      hb hp (fun r hr d hd => hcross r hr d (List.mem_cons_of_mem _ hd)) h
  | case4 directive rest data regions hx =>
    intro rs hwf hb hp hcross h
    rw [enterScope_cons] at h
    simp only [hx] at h
    injection h with h
    subst h
    exact ⟨hb, hp⟩
  | case5 directive rest data regions hx v stk ih =>
    intro rs hwf hb hp hcross h
    rw [enterScope_cons] at h
    simp only [hx] at h
    exact ih rs
      ⟨fun d hd => hwf.1 d (List.mem_cons_of_mem _ hd), (List.pairwise_cons.mp hwf.2).2⟩
      hb hp (fun r hr d hd => hcross r hr d (List.mem_cons_of_mem _ hd)) h
  | case6 directive rest stack data regions hx ih =>
    intro rs hwf hb hp hcross h
    rw [enterScope_cons] at h
    simp only [hx] at h
    exact ih rs
      ⟨fun d hd => hwf.1 d (List.mem_cons_of_mem _ hd), (List.pairwise_cons.mp hwf.2).2⟩
      hb hp (fun r hr d hd => hcross r hr d (List.mem_cons_of_mem _ hd)) h
  | case7 directive rest stack data regions hx ih =>
    intro rs hwf hb hp hcross h
    rw [enterScope_cons] at h
    simp only [hx] at h
    exact ih rs
      ⟨fun d hd => hwf.1 d (List.mem_cons_of_mem _ hd), (List.pairwise_cons.mp hwf.2).2⟩
      hb hp (fun r hr d hd => hcross r hr d (List.mem_cons_of_mem _ hd)) h
  | case8 directive stack data regions hx next rest' hnext ih =>
    intro rs hwf hb hp hcross h
    rw [enterScope_cons] at h
    simp only [hx, hnext] at h
    have hdfacts := hwf.1 directive (by simp)
    have hnfacts := hwf.1 next (by simp)
    have hpair := hwf.2
    have hdn : directive.end_ ≤ next.start :=
      (List.pairwise_cons.mp hpair).1 next (by simp)
    have hnrest : ∀ d'' ∈ rest', next.end_ ≤ d''.start :=
      (List.pairwise_cons.mp (List.pairwise_cons.mp hpair).2).1
    have hwfrest : DirectivesWF text.length rest' :=
      ⟨fun d hd => hwf.1 d (List.mem_cons_of_mem _ (List.mem_cons_of_mem _ hd)),
       (List.pairwise_cons.mp (List.pairwise_cons.mp hpair).2).2⟩
    refine ih rs hwfrest ?_ ?_ ?_ h
    · intro r hr
      rcases List.mem_append.mp hr with hold | hnew
      · exact hb r hold
      · rcases List.mem_singleton.mp hnew with rfl
        refine ⟨hdn, ?_⟩
        calc next.start ≤ next.end_ := le_of_lt hnfacts.1
          _ ≤ text.length := hnfacts.2
    · rw [List.pairwise_append]
      refine ⟨hp, List.pairwise_singleton _ _, ?_⟩
      intro r hr r' hr'
      rcases List.mem_singleton.mp hr' with rfl
      calc r.end_ ≤ directive.start := hcross r hr directive (by simp)
        _ < directive.end_ := hdfacts.1
    · intro r hr d'' hd''
      rcases List.mem_append.mp hr with hold | hnew
      · exact hcross r hold d''
          (List.mem_cons_of_mem _ (List.mem_cons_of_mem _ hd''))
      · rcases List.mem_singleton.mp hnew with rfl
        calc next.start ≤ next.end_ := le_of_lt hnfacts.1
          _ ≤ d''.start := hnrest d'' hd''
  | case9 directive stack data regions hx next rest' hne =>
    intro rs hwf hb hp hcross h
    cases hnext : next.type
    · rw [enterScope_cons] at h
      simp only [hx, hnext] at h
      exact Except.noConfusion h
    · exact absurd hnext hne
    · rw [enterScope_cons] at h
      simp only [hx, hnext] at h
      exact Except.noConfusion h
    · rw [enterScope_cons] at h
      simp only [hx, hnext] at h
      exact Except.noConfusion h
    · rw [enterScope_cons] at h
      simp only [hx, hnext] at h
      exact Except.noConfusion h
  | case10 directive stack data regions hx =>
    intro rs hwf hb hp hcross h
    rw [enterScope_cons] at h
    simp only [hx] at h
    exact Except.noConfusion h

/-- Claim C9: on every input (with a well-formed regex match list) on which
`extractRegions` succeeds, the returned regions are sorted by strictly
ascending `start` and their `[start, end)` spans are pairwise disjoint. -/
theorem regions_sorted_disjoint (jp : String → Option Js) (text : List Char)
    (ms : List RawMatch) (d : Js) (rs : List InjectableRegion)
    (hm : MatchesWF text ms)
    (hok : extractRegions jp text ms d = .ok rs) :
    rs.Pairwise (fun a b => a.start < b.start) ∧
    rs.Pairwise (fun a b => a.end_ ≤ b.start) ∧
    ∀ r ∈ rs, r.start ≤ r.end_ := by
  unfold extractRegions at hok
  cases hx : extractDirectives jp text ms with
  | error e => rw [hx] at hok; exact Except.noConfusion hok
  | ok ds =>
    rw [hx] at hok
    have hwf := extractDirectives_wf jp text ms ds hx hm
    have hmain := enterScope_regions_wf text ds [] d [] rs hwf
      (by simp) List.Pairwise.nil (by simp) hok
    refine ⟨?_, ?_, fun r hr => (hmain.1 r hr).1⟩
    · exact hmain.2.imp_of_mem
        (fun {a b} ha hb hrel => lt_of_le_of_lt (hmain.1 a ha).1 hrel)
    · exact hmain.2.imp (fun {a b} hrel => le_of_lt hrel)

/-- Witness for C9 at the two-region sample `textD`. -/
theorem regions_sorted_disjoint_witness :
    List.Pairwise (fun (a b : InjectableRegion) => a.start < b.start)
      [⟨Js.arr [], Js.obj [], [], 13, 14⟩, ⟨Js.arr [], Js.obj [], [], 38, 39⟩] ∧
    List.Pairwise (fun (a b : InjectableRegion) => a.end_ ≤ b.start)
      [⟨Js.arr [], Js.obj [], [], 13, 14⟩, ⟨Js.arr [], Js.obj [], [], 38, 39⟩] ∧
    ∀ r ∈ [(⟨Js.arr [], Js.obj [], [], 13, 14⟩ : InjectableRegion),
      ⟨Js.arr [], Js.obj [], [], 38, 39⟩], r.start ≤ r.end_ :=
  regions_sorted_disjoint jsonParseA textD rawMatchesD (Js.obj [])
    [⟨Js.arr [], Js.obj [], [], 13, 14⟩, ⟨Js.arr [], Js.obj [], [], 38, 39⟩]
    (by constructor
        · decide
        · decide)
    rfl

/-! ### Claim C10 — byte-identical render output round-trips -/

/-- A string already framed by newlines passes through the normalizers
unchanged. -/
theorem normalize_fixed (s : List Char) (hhead : s.head? = some '\n')
    (hlast : s.getLast? = some '\n') :
    ensureStringStartsWithNewline (ensureStringEndsWithNewline s) = s := by
  match s with
  | [] => simp at hhead
  | c :: rest =>
    have hc : c = '\n' := by simpa using hhead
    rw [ensureStringEndsWithNewline, if_pos hlast, ensureStringStartsWithNewline, if_pos hc]

/-- In-bounds `substring` is plain take-then-drop. -/
theorem jsSubstring_in_bounds (s : List Char) (a b : Nat) (hab : a ≤ b)
    (hb : b ≤ s.length) : jsSubstring s a b = (s.take b).drop a := by
  have ha : a ≤ s.length := le_trans hab hb
  simp only [jsSubstring]
  rw [Nat.min_eq_left ha, Nat.min_eq_left hb, Nat.max_eq_right hab, Nat.min_eq_left hab]

/-- Splicing a middle segment back between its prefix and suffix is the
identity. -/
theorem splice_decompose (l : List Char) (a b : Nat) (hab : a ≤ b) :
    (l.take b).drop a ++ l.drop b = l.drop a := by
  have h3 := List.drop_take_append_drop l a (b - a)
  rw [Nat.add_sub_cancel' hab] at h3
  rw [List.drop_take]
  exact h3

/-- The splicing loop of `inject` reproduces the text when every region's
normalized render output equals the region's own span of the text. -/
theorem injectLoop_reconstruct (text : List Char) (cb : InjectableRegion → List Char) :
    ∀ (rs : List InjectableRegion) (cursor : Nat) (acc : List Char),
      cursor ≤ text.length →
      (∀ r ∈ rs, cursor ≤ r.start) →
      (∀ r ∈ rs, r.start ≤ r.end_ ∧ r.end_ ≤ text.length) →
      rs.Pairwise (fun a b => a.end_ ≤ b.start) →
      (∀ r ∈ rs, ensureStringStartsWithNewline (ensureStringEndsWithNewline (cb r)) =
        jsSubstring text r.start r.end_) →
      injectLoop text cb rs cursor acc = acc ++ text.drop cursor := by
  intro rs
  induction rs with
  | nil =>
    intro cursor acc _ _ _ _ _
    rw [injectLoop]
  | cons r rest ih =>
    intro cursor acc hc hstarts hspans hpair hcb
    have hr := hspans r (List.mem_cons_self _ _)
    have hcr : cursor ≤ r.start := hstarts r (List.mem_cons_self _ _)
    have hrs : r.start ≤ text.length := le_trans hr.1 hr.2
    rw [injectLoop, hcb r (List.mem_cons_self _ _)]
    rw [ih r.end_ _ hr.2
      (fun r' hr' => (List.pairwise_cons.mp hpair).1 r' hr')
      (fun r' hr' => hspans r' (List.mem_cons_of_mem _ hr'))
      (List.pairwise_cons.mp hpair).2
      (fun r' hr' => hcb r' (List.mem_cons_of_mem _ hr'))]
    rw [jsSubstring_in_bounds text cursor r.start hcr hrs,
      jsSubstring_in_bounds text r.start r.end_ hr.1 hr.2]
    simp only [List.append_assoc]
    congr 1
    rw [splice_decompose text r.start r.end_ hr.1]
    exact splice_decompose text cursor r.start hcr

/-- Claim C10: when extraction succeeds (on a well-formed match list) and the
render callback reproduces each region's original content byte-identically —
content that already begins and ends with a newline — `inject` returns the
input text unchanged (for any initial data argument). -/
theorem inject_roundtrip (jp : String → Option Js) (text : List Char)
    (ms : List RawMatch) (cb : InjectableRegion → List Char) (d : Js)
    (rs : List InjectableRegion)
    (hm : MatchesWF text ms)
    (hok : extractRegions jp text ms (Js.obj []) = .ok rs)
    (hcb : ∀ r ∈ rs, cb r = jsSubstring text r.start r.end_ ∧
      (cb r).head? = some '\n' ∧ (cb r).getLast? = some '\n') :
    inject jp text ms cb d = .ok text := by
  have hfacts : (∀ r ∈ rs, r.start ≤ r.end_ ∧ r.end_ ≤ text.length) ∧
      rs.Pairwise (fun a b => a.end_ < b.start) := by
    have h2 := hok
    unfold extractRegions at h2
    cases hx : extractDirectives jp text ms with
    | error e => rw [hx] at h2; exact Except.noConfusion h2
    | ok ds =>
      rw [hx] at h2
      exact enterScope_regions_wf text ds [] (Js.obj []) [] rs
        (extractDirectives_wf jp text ms ds hx hm) (by simp) List.Pairwise.nil
        (by simp) h2
  have hnorm : ∀ r ∈ rs,
      ensureStringStartsWithNewline (ensureStringEndsWithNewline (cb r)) =
        jsSubstring text r.start r.end_ := by
    intro r hr
    obtain ⟨h1, h2, h3⟩ := hcb r hr
    rw [normalize_fixed (cb r) h2 h3, h1]
  simp only [inject, hok]
  rw [injectLoop_reconstruct text cb rs 0 [] (Nat.zero_le _)
    (fun r hr => Nat.zero_le _) hfacts.1 (hfacts.2.imp (fun {a b} hrel => le_of_lt hrel))
    hnorm]
  simp

/-- Witness for C10: rendering the single (empty) region of `textA` as its
original content `"\n"` reproduces `textA` exactly. -/
theorem inject_roundtrip_witness :
    inject jsonParseA textA rawMatchesA (fun _ => ['\n']) (Js.obj []) = .ok textA := by
  refine inject_roundtrip jsonParseA textA rawMatchesA _ (Js.obj [])
    [⟨Js.arr [], Js.obj [], [], 13, 14⟩] ⟨by decide, by decide⟩ rfl ?_
  intro r hr
  rw [List.mem_singleton] at hr
  subst hr
  exact ⟨rfl, rfl, rfl⟩

end Incode